import Mathlib

/-!
Verification of the props-util property-resolution engine.

The source is a derive macro (`src/lib.rs`) whose generated code resolves a
string-keyed property map onto the fields of a record type.  We embed the
generated code shallowly: the per-field metadata extracted by
`parse_key_default`, the lookup expression built by
`generate_init_token_streams`, the per-shape initialisation of
`generate_field_init_quote`, the helper parsers `parse` / `parse_vec`, the
line reader of `from_file`, and the export function `into_hash_map`.
Machine strings are `String` (lists of characters); the Rust `str` helpers
used by the source (`trim`, `split`, `split_once`) are re-implemented below
on `List Char`.
-/

deriving instance DecidableEq for Except

namespace PropsUtil

/-! ### Rust `str` helpers -/

/-- Strip leading whitespace characters, as Rust `str::trim_start` does
(the source only ever meets ASCII whitespace). -/
def trimL : List Char → List Char
  | [] => []
  | c :: cs => if c.isWhitespace then trimL cs else c :: cs

/-- Rust `str::trim`: strip whitespace from both ends. -/
def trimC (l : List Char) : List Char := (trimL (trimL l).reverse).reverse

/-- Rust `str::trim` on `String`. -/
def strTrim (s : String) : String := ⟨trimC s.data⟩

/-- Helper for `splitChar`: the first segment and the remaining segments. -/
def splitAux (sep : Char) : List Char → List Char × List (List Char)
  | [] => ([], [])
  | c :: cs =>
    let r := splitAux sep cs
    if c = sep then ([], r.1 :: r.2) else (c :: r.1, r.2)

/-- Rust `str::split(sep)`: `"".split` yields one empty segment, and a
trailing separator yields a trailing empty segment. -/
def splitChar (sep : Char) (l : List Char) : List (List Char) :=
  (splitAux sep l).1 :: (splitAux sep l).2

/-- Rust `slice::join(sep)` on character lists. -/
def joinWith (sep : Char) : List (List Char) → List Char
  | [] => []
  | [p] => p
  | p :: q :: ps => p ++ sep :: joinWith sep (q :: ps)

/-- Rust `str::split_once(sep)`: split at the first occurrence of `sep`,
`none` when `sep` does not occur. -/
def splitOnce (sep : Char) : List Char → Option (List Char × List Char)
  | [] => none
  | c :: cs =>
    if c = sep then some ([], cs)
    else match splitOnce sep cs with
      | none => none
      | some (a, b) => some (c :: a, b)

/-! ### Primitive `FromStr` / `Display` models

The engine is generic over any `FromStr` field type; we instantiate the
universe of element types with `String`, an unsigned integer, and `bool`,
which covers every behaviour the specification distinguishes. -/

/-- The decimal digit character for `d < 10`. -/
def digitChar (d : Nat) : Char := Char.ofNat (48 + d)

/-- The numeric value of a digit character. -/
def digitVal (c : Char) : Nat := c.toNat - 48

/-- Decimal digits of `n`, most significant first; fuel-driven so that it
evaluates by kernel reduction.  `natReprAux fuel 0 = []`. -/
def natReprAux : Nat → Nat → List Char
  | 0, _ => []
  | _ + 1, 0 => []
  | fuel + 1, n + 1 => natReprAux fuel ((n + 1) / 10) ++ [digitChar ((n + 1) % 10)]

/-- Rust `u64::to_string`: canonical decimal representation. -/
def natRepr (n : Nat) : List Char := if n = 0 then [digitChar 0] else natReprAux n n

/-- Parse a nonempty all-digit character list as a decimal number. -/
def natParseDigits (l : List Char) : Option Nat :=
  if l = [] then none
  else if l.all Char.isDigit then some (l.foldl (fun a c => 10 * a + digitVal c) 0)
  else none

/-- Rust `u64::from_str`: an optional leading `+` then one or more digits;
no surrounding whitespace is accepted. -/
def natParse (l : List Char) : Option Nat :=
  match l with
  | [] => none
  | c :: cs => if c = '+' then natParseDigits cs else natParseDigits (c :: cs)

/-- Rust `bool::from_str`: exactly `true` or `false`. -/
def boolParse (l : List Char) : Option Bool :=
  if l = "true".data then some true
  else if l = "false".data then some false
  else none

/-- The element types instantiating the engine's `FromStr` parameter. -/
inductive PrimTy
  | pstring
  | pnat
  | pbool
deriving DecidableEq

/-- A parsed primitive value. -/
inductive PrimVal
  | vstring (s : String)
  | vnat (n : Nat)
  | vbool (b : Bool)
deriving DecidableEq

/-- `str::parse::<T>` for each element type (`String`'s `FromStr` is the
identity and never fails). -/
def parsePrim : PrimTy → String → Option PrimVal
  | .pstring, s => some (.vstring s)
  | .pnat, s => (natParse s.data).map .vnat
  | .pbool, s => (boolParse s.data).map .vbool

/-- `T::to_string` for each element type (Rust `Display`). -/
def serializePrim : PrimVal → String
  | .vstring s => s
  | .vnat n => ⟨natRepr n⟩
  | .vbool b => if b then "true" else "false"

/-! ### The generated helpers `parse` and `parse_vec` (lib.rs:417-428) -/

/-- Generated `fn parse`: scalar coercion; on failure the error carries the
offending raw string (the generated message interpolates it). -/
def parse (t : PrimTy) (s : String) : Except String PrimVal :=
  match parsePrim t s with
  | some v => .ok v
  | none => .error s

/-- The segment pipeline of `fn parse_vec`: split the raw string on `,`,
trim each segment, drop segments that trim to empty. -/
def segments (s : String) : List String :=
  (((splitChar ',' s.data).map trimC).filter (fun l => l ≠ [])).map
    (fun l => (⟨l⟩ : String))

/-- Rust `collect::<Result<Vec<_>, _>>`: stop at the first failing element. -/
def mapExcept (f : α → Except ε β) : List α → Except ε (List β)
  | [] => .ok []
  | a :: as =>
    match f a with
    | .error e => .error e
    | .ok b =>
      match mapExcept f as with
      | .error e => .error e
      | .ok bs => .ok (b :: bs)

/-- Generated `fn parse_vec`: coerce each surviving segment, failing on the
first segment the scalar parser rejects (Rust `collect` into `Result`). -/
def parse_vec (t : PrimTy) (s : String) : Except String (List PrimVal) :=
  mapExcept (parse t) (segments s)

/-! ### Schema data model -/

/-- The four type shapes the macro distinguishes (`Vec`, `Option`,
`Option<Vec<..>>`, or a plain scalar). -/
inductive Shape
  | scalar (t : PrimTy)
  | optionScalar (t : PrimTy)
  | seqOf (t : PrimTy)
  | optionSeq (t : PrimTy)
deriving DecidableEq

/-- One field descriptor: the field's identifier, the lookup key and
optional default extracted by `parse_key_default`, and the type shape. -/
structure FieldDesc where
  name : String
  key : String
  dflt : Option String
  shape : Shape
deriving DecidableEq

/-- A resolved field value. -/
inductive Value
  | scalar (v : PrimVal)
  | optScalar (v : Option PrimVal)
  | seqV (vs : List PrimVal)
  | optSeq (vs : Option (List PrimVal))
deriving DecidableEq

/-- The runtime errors the generated code produces (each `std::io::Error`
message interpolates exactly the data carried here). -/
inductive PropError
  | parseFailure (key : String) (raw : String) (cause : String)
  | missingRequired (key : String)
  | malformedLine (lineNum : Nat) (path : String) (content : String)
deriving DecidableEq

/-- The propmap: `HashMap<String, String>` modelled as an association list
where the most recent insertion wins. -/
abbrev PropMap := List (String × String)

/-- `HashMap::get`. -/
def hmGet (m : PropMap) (k : String) : Option String :=
  (m.find? (fun p => p.1 == k)).map (fun p => p.2)

/-- `HashMap::insert` (overwrites earlier entries via `hmGet`'s
first-match rule). -/
def hmInsert (m : PropMap) (k v : String) : PropMap := (k, v) :: m

/-! ### The resolution engine -/

/-- The lookup expression built by `generate_init_token_streams`
(lib.rs:330-333): with a default the raw value is
`Some(propmap.get(key).unwrap_or(default))`; otherwise `propmap.get(key)`. -/
def rawValue (propmap : PropMap) (fd : FieldDesc) : Option String :=
  match fd.dflt with
  | some d => some ((hmGet propmap fd.key).getD d)
  | none => hmGet propmap fd.key

/-- `generate_field_init_quote` (lib.rs:284-320): shape-directed
initialisation of one field from its raw value. -/
def initField (propmap : PropMap) (fd : FieldDesc) : Except PropError Value :=
  match fd.shape with
  | .scalar t =>
    match rawValue propmap fd with
    | some val =>
      match parse t val with
      | .ok v => .ok (.scalar v)
      | .error cause => .error (.parseFailure fd.key val cause)
    | none => .error (.missingRequired fd.key)
  | .optionScalar t =>
    match rawValue propmap fd with
    | some val =>
      match parse t val with
      | .ok v => .ok (.optScalar (some v))
      | .error cause => .error (.parseFailure fd.key val cause)
    | none => .ok (.optScalar none)
  | .seqOf t =>
    match rawValue propmap fd with
    | some val =>
      match parse_vec t val with
      | .ok vs => .ok (.seqV vs)
      | .error cause => .error (.parseFailure fd.key val cause)
    | none => .error (.missingRequired fd.key)
  | .optionSeq t =>
    match rawValue propmap fd with
    | some val =>
      match parse_vec t val with
      | .ok vs => .ok (.optSeq (some vs))
      | .error cause => .error (.parseFailure fd.key val cause)
    | none => .ok (.optSeq none)

/-- The struct literal `Self { #(#init_arr),* }`: fields are initialised in
declaration order and the first error returns immediately. -/
def resolveFields (propmap : PropMap) : List FieldDesc → Except PropError (List Value)
  | [] => .ok []
  | fd :: rest =>
    match initField propmap fd with
    | .error e => .error e
    | .ok v =>
      match resolveFields propmap rest with
      | .error e => .error e
      | .ok vs => .ok (v :: vs)

/-- Generated `fn from`: resolve against a caller-supplied map, used
verbatim (lib.rs:532-538). -/
def fromMap (schema : List FieldDesc) (m : PropMap) : Except PropError (List Value) :=
  resolveFields m schema

/-- Generated `fn default`: resolve against the empty map (lib.rs:540-544). -/
def defaultRecord (schema : List FieldDesc) : Except PropError (List Value) :=
  resolveFields [] schema

/-- The line loop of `fn from_file` (lib.rs:471-484): trim each line, skip
blank and `#`/`!` comment lines, split the rest at the first `=` trimming
both sides, and fail on a line without `=` citing the 1-based line number
(`line_num` counts every physical line, starting at 0). -/
def buildPropMap (path : String) : Nat → PropMap → List String → Except PropError PropMap
  | _, acc, [] => .ok acc
  | lineNum, acc, line :: rest =>
    let l := strTrim line
    if l.data = [] then buildPropMap path (lineNum + 1) acc rest
    else if l.data.head? = some '#' || l.data.head? = some '!' then
      buildPropMap path (lineNum + 1) acc rest
    else
      match splitOnce '=' l.data with
      | some (k, v) =>
        buildPropMap path (lineNum + 1) (hmInsert acc (strTrim ⟨k⟩) (strTrim ⟨v⟩)) rest
      | none => .error (.malformedLine (lineNum + 1) path l)

/-- Generated `fn from_file` after the I/O succeeded: the file content is
the list of its lines (Rust `str::lines`). -/
def from_file (schema : List FieldDesc) (path : String) (lines : List String) :
    Except PropError (List Value) :=
  match buildPropMap path 0 [] lines with
  | .error e => .error e
  | .ok m => resolveFields m schema

/-! ### The export direction: `into_hash_map` -/

/-- `generate_field_hm_token_stream` (lib.rs:352-383): the string written
for one field's value, or `none` for an absent optional field (which writes
no entries at all). Sequences are joined with `,`. -/
def serializeValue : Value → Option String
  | .scalar v => some (serializePrim v)
  | .optScalar (some v) => some (serializePrim v)
  | .optScalar none => none
  | .seqV vs => some ⟨joinWith ',' (vs.map (fun v => (serializePrim v).data))⟩
  | .optSeq (some vs) => some ⟨joinWith ',' (vs.map (fun v => (serializePrim v).data))⟩
  | .optSeq none => none

/-- The insert loop of `fn into_hash_map`: for each field in declaration
order insert the value under the field name and then under the declared
key; absent optional fields are skipped. -/
def into_hash_map_aux : PropMap → List FieldDesc → List Value → PropMap
  | acc, [], _ => acc
  | acc, _ :: _, [] => acc
  | acc, fd :: fds, v :: vs =>
    match serializeValue v with
    | some s => into_hash_map_aux (hmInsert (hmInsert acc fd.name s) fd.key s) fds vs
    | none => into_hash_map_aux acc fds vs

/-- Generated `fn into_hash_map` (lib.rs:489-494). -/
def into_hash_map (schema : List FieldDesc) (r : List Value) : PropMap :=
  into_hash_map_aux [] schema r

/-! ### Attribute parsing: `parse_key_default` (lib.rs:550-591)

A `#[prop(...)]` attribute is a list of `name = "literal"` items; the field
may also carry no `prop` attribute at all. -/

/-- One recognised-parameter error of `parse_key_default`. -/
inductive AttrError
  | duplicateKey
  | duplicateDefault
  | unrecognized (param : String)
deriving DecidableEq

/-- The `parse_nested_meta` closure: recognises only `key` and `default`,
rejecting a duplicate of either and any other parameter name. -/
def parse_meta : List (String × String) → Option String → Option String →
    Except AttrError (Option String × Option String)
  | [], k, d => .ok (k, d)
  | (p, v) :: rest, k, d =>
    if p = "key" then
      match k with
      | some _ => .error .duplicateKey
      | none => parse_meta rest (some v) d
    else if p = "default" then
      match d with
      | some _ => .error .duplicateDefault
      | none => parse_meta rest k (some v)
    else .error (.unrecognized p)

/-- `fn parse_key_default`: no attribute means the field name is the key
with no default; otherwise parse the items and fall back to the field name
when `key` was not declared. -/
def parse_key_default (fieldName : String) (attr : Option (List (String × String))) :
    Except AttrError (String × Option String) :=
  match attr with
  | none => .ok (fieldName, none)
  | some metas =>
    match parse_meta metas none none with
    | .error e => .error e
    | .ok (k, d) => .ok (k.getD fieldName, d)

/-! ### Derived descriptions used to state the claims -/

/-- The sequence-coercion pipeline exactly as the specification words it
(section 4.2): split the raw string on `,`, trim each segment, discard
segments that become empty after trimming, then coerce each survivor via
scalar coercion, order preserved.  Stated separately from `parse_vec` so
the refinement between the two can be proved. -/
def coerce_sequence_spec (t : PrimTy) (raw : String) : Except String (List PrimVal) :=
  mapExcept (fun l => parse t (⟨l⟩ : String))
    (((splitChar ',' raw.data).map trimC).filter (fun l => l ≠ []))

/-- The entries the specification says export writes for one field: the
serialized value under the declared key and under the field name, or no
entries for an absent optional field.  (Listed key-first to match the
shadowing order of the insert loop.) -/
def exportEntries (fd : FieldDesc) (v : Value) : PropMap :=
  match serializeValue v with
  | some s => [(fd.key, s), (fd.name, s)]
  | none => []

/-- Schema well-formedness for the round-trip law: distinct fields never
reuse one another's lookup key, neither as a key nor as a field name. -/
def KeysSeparated (schema : List FieldDesc) : Prop :=
  schema.Pairwise (fun f g => f.key ≠ g.key ∧ f.key ≠ g.name ∧ g.key ≠ f.name)

/-- A character list that the segment pipeline leaves unchanged: nonempty,
trim-invariant, and containing no separator. -/
def CleanSeg (l : List Char) : Prop :=
  l ≠ [] ∧ trimC l = l ∧ ',' ∉ l

/-! ### Basic helper lemmas -/

theorem rawValue_of_get {m : PropMap} {fd : FieldDesc} {v : String}
    (h : hmGet m fd.key = some v) : rawValue m fd = some v := by
  unfold rawValue
  cases fd.dflt <;> simp [h]

theorem rawValue_default {m : PropMap} {fd : FieldDesc} {d : String}
    (h : hmGet m fd.key = none) (hd : fd.dflt = some d) : rawValue m fd = some d := by
  unfold rawValue
  rw [hd, h]
  rfl

theorem mapExcept_map (f : β → Except ε γ) (g : α → β) (l : List α) :
    mapExcept f (l.map g) = mapExcept (fun a => f (g a)) l := by
  induction l with
  | nil => rfl
  | cons a as ih => simp only [List.map_cons, mapExcept, ih]

theorem parse_vec_empty (t : PrimTy) : parse_vec t "" = .ok [] := rfl

theorem resolveFields_append_error {m : PropMap} {pre : List FieldDesc}
    {fd : FieldDesc} {post : List FieldDesc} {e : PropError}
    (hpre : ∀ g ∈ pre, ∃ v, initField m g = .ok v)
    (hfd : initField m fd = .error e) :
    resolveFields m (pre ++ fd :: post) = .error e := by
  induction pre with
  | nil => simp [resolveFields, hfd]
  | cons g gs ih =>
    obtain ⟨v, hv⟩ := hpre g (by simp)
    have htail := ih (fun g hg => hpre g (by simp [hg]))
    simp [resolveFields, hv, htail]

/-! ### The claims -/

/-- Claim C3: a source-mapping entry under the field's key is the resolved
raw value even when a default is declared; with no source entry the
declared default is the resolved raw value. -/
theorem C3_lookup_precedence :
    (∀ (m : PropMap) (fd : FieldDesc) (v : String),
      hmGet m fd.key = some v → rawValue m fd = some v) ∧
    (∀ (m : PropMap) (fd : FieldDesc) (d : String),
      hmGet m fd.key = none → fd.dflt = some d → rawValue m fd = some d) :=
  ⟨fun _ _ _ h => rawValue_of_get h, fun _ _ _ h hd => rawValue_default h hd⟩

/-- Witness for C3 at a concrete map and field. -/
theorem C3_lookup_precedence_witness :
    rawValue [("k", "v")] ⟨"f", "k", some "d", .scalar .pstring⟩ = some "v" ∧
    rawValue [] ⟨"f", "k", some "d", .scalar .pstring⟩ = some "d" :=
  ⟨C3_lookup_precedence.1 [("k", "v")] ⟨"f", "k", some "d", .scalar .pstring⟩ "v" rfl,
   C3_lookup_precedence.2 [] ⟨"f", "k", some "d", .scalar .pstring⟩ "d" rfl rfl⟩

/-- Claim C4: a raw value that is absent through every tier resolves an
optional shape to the empty option without error, while a required shape
fails with a missing-required-field error carrying the declared key — and
the whole resolution fails with that error. -/
theorem C4_absence_policy :
    ∀ (m : PropMap) (fd : FieldDesc), rawValue m fd = none →
      (∀ t, fd.shape = .optionScalar t → initField m fd = .ok (.optScalar none)) ∧
      (∀ t, fd.shape = .optionSeq t → initField m fd = .ok (.optSeq none)) ∧
      (∀ t, fd.shape = .scalar t → initField m fd = .error (.missingRequired fd.key)) ∧
      (∀ t, fd.shape = .seqOf t → initField m fd = .error (.missingRequired fd.key)) ∧
      (∀ t pre post, fd.shape = .scalar t ∨ fd.shape = .seqOf t →
        (∀ g ∈ pre, ∃ v, initField m g = .ok v) →
        resolveFields m (pre ++ fd :: post) = .error (.missingRequired fd.key)) := by
  intro m fd h
  refine ⟨?_, ?_, ?_, ?_, ?_⟩
  · intro t ht; simp [initField, ht, h]
  · intro t ht; simp [initField, ht, h]
  · intro t ht; simp [initField, ht, h]
  · intro t ht; simp [initField, ht, h]
  · intro t pre post ht hpre
    refine resolveFields_append_error hpre ?_
    rcases ht with ht | ht <;> simp [initField, ht, h]

/-- Witness for C4 at a concrete absent required field. -/
theorem C4_absence_policy_witness :
    resolveFields [] [⟨"f", "k", none, .scalar .pstring⟩] =
      .error (.missingRequired "k") :=
  (C4_absence_policy [] ⟨"f", "k", none, .scalar .pstring⟩ rfl).2.2.2.2
    .pstring [] [] (Or.inl rfl) (fun g hg => absurd hg (List.not_mem_nil g))

/-- Claim C5: sequence coercion refines the specification's pipeline —
split on `,`, trim segments, drop segments that trim to empty, coerce the
survivors in order without deduplication; the empty string yields the
empty sequence and a failing segment fails the whole coercion. -/
theorem C5_sequence_coercion :
    (∀ t raw, parse_vec t raw = coerce_sequence_spec t raw) ∧
    parse_vec .pnat "4,5,6,7" = .ok [.vnat 4, .vnat 5, .vnat 6, .vnat 7] ∧
    parse_vec .pnat "1,,2" = .ok [.vnat 1, .vnat 2] ∧
    parse_vec .pnat "1,2," = .ok [.vnat 1, .vnat 2] ∧
    (∀ t, parse_vec t "" = .ok []) ∧
    parse_vec .pnat "2,1,2" = .ok [.vnat 2, .vnat 1, .vnat 2] ∧
    parse_vec .pnat "1,invalid,3" = .error "invalid" := by
  refine ⟨?_, by decide, by decide, by decide, parse_vec_empty, by decide, by decide⟩
  intro t raw
  unfold parse_vec segments coerce_sequence_spec
  exact mapExcept_map (parse t) _ _

/-- Claim C9: a present-but-empty source value is a literal empty string,
never absence: the default is not applied, a required string field gets
`""`, a required sequence field gets the empty sequence, and a required
numeric field fails with a parse failure rather than missing-required. -/
theorem C9_empty_value_is_literal :
    ∀ (m : PropMap) (fd : FieldDesc), hmGet m fd.key = some "" →
      rawValue m fd = some "" ∧
      (fd.shape = .scalar .pstring → initField m fd = .ok (.scalar (.vstring ""))) ∧
      (∀ t, fd.shape = .seqOf t → initField m fd = .ok (.seqV [])) ∧
      (fd.shape = .scalar .pnat → initField m fd = .error (.parseFailure fd.key "" "")) := by
  intro m fd h
  have hraw : rawValue m fd = some "" := rawValue_of_get h
  refine ⟨hraw, ?_, ?_, ?_⟩
  · intro ht; simp [initField, ht, hraw, parse, parsePrim]
  · intro t ht; simp [initField, ht, hraw, parse_vec_empty]
  · intro ht; simp [initField, ht, hraw, parse, parsePrim, natParse]

/-- Witness for C9 at a concrete map whose key holds the empty string. -/
theorem C9_empty_value_is_literal_witness :
    initField [("k", "")] ⟨"f", "k", some "9", .scalar .pnat⟩ =
      .error (.parseFailure "k" "" "") :=
  (C9_empty_value_is_literal [("k", "")] ⟨"f", "k", some "9", .scalar .pnat⟩ rfl).2.2.2 rfl

/-- Claim C10: `from` and `default` consume mapping keys, values and
default literals verbatim — no trimming — so a value like `" 42 "` fails
numeric parsing and an untrimmed mapping key is not found; only
`from_file` trims keys and values while building the mapping. -/
theorem C10_no_trimming_outside_from_file :
    (∀ (m : PropMap) (fd : FieldDesc) (t : PrimTy) (v cause : String),
      fd.shape = .scalar t → hmGet m fd.key = some v → parse t v = .error cause →
      initField m fd = .error (.parseFailure fd.key v cause)) ∧
    fromMap [⟨"x", "k", none, .scalar .pnat⟩] [("k", " 42 ")] =
      .error (.parseFailure "k" " 42 " " 42 ") ∧
    defaultRecord [⟨"x", "k", some " 7 ", .scalar .pnat⟩] =
      .error (.parseFailure "k" " 7 " " 7 ") ∧
    fromMap [⟨"x", "k", none, .scalar .pnat⟩] [(" k ", "42")] =
      .error (.missingRequired "k") ∧
    from_file [⟨"x", "k", none, .scalar .pnat⟩] "p" ["  k =  42  "] =
      .ok [.scalar (.vnat 42)] := by
  refine ⟨?_, by decide, by decide, by decide, by decide⟩
  intro m fd t v cause ht hv hp
  simp [initField, ht, rawValue_of_get hv, hp]

/-- Witness for C10 at a concrete untrimmed caller-supplied value. -/
theorem C10_no_trimming_outside_from_file_witness :
    initField [("k", " 42 ")] ⟨"x", "k", none, .scalar .pnat⟩ =
      .error (.parseFailure "k" " 42 " " 42 ") :=
  C10_no_trimming_outside_from_file.1 [("k", " 42 ")] ⟨"x", "k", none, .scalar .pnat⟩
    .pnat " 42 " " 42 " rfl rfl (by decide)

theorem splitOnce_of_not_mem {c : Char} {l : List Char} (h : c ∉ l) :
    splitOnce c l = none := by
  induction l with
  | nil => rfl
  | cons a as ih =>
    have ha : a ≠ c := fun he => h (he ▸ List.mem_cons_self a as)
    have has : c ∉ as := fun hm => h (List.mem_cons_of_mem a hm)
    simp [splitOnce, ha, ih has]

theorem splitOnce_append {c : Char} {k v : List Char} (h : c ∉ k) :
    splitOnce c (k ++ c :: v) = some (k, v) := by
  induction k with
  | nil => simp [splitOnce]
  | cons a as ih =>
    have ha : a ≠ c := fun he => h (he ▸ List.mem_cons_self a as)
    have has : c ∉ as := fun hm => h (List.mem_cons_of_mem a hm)
    simp [splitOnce, ha, ih has]

/-- Claim C8: the line reader skips lines whose trimmed content is blank or
starts with `#` or `!`, splits every other line at the first `=` with both
sides trimmed before insertion, and fails on a non-blank non-comment line
without `=`, citing the 1-based line number and the file path. -/
theorem C8_properties_line_format :
    (∀ (path : String) (n : Nat) (acc : PropMap) (line : String) (rest : List String),
      (strTrim line).data = [] →
      buildPropMap path n acc (line :: rest) = buildPropMap path (n + 1) acc rest) ∧
    (∀ (path : String) (n : Nat) (acc : PropMap) (line : String) (rest : List String) (h : Char),
      (strTrim line).data.head? = some h → (h = '#' ∨ h = '!') →
      buildPropMap path n acc (line :: rest) = buildPropMap path (n + 1) acc rest) ∧
    (∀ (path : String) (n : Nat) (acc : PropMap) (line : String) (rest : List String)
      (k v : List Char),
      (strTrim line).data = k ++ '=' :: v → '=' ∉ k →
      (strTrim line).data.head? ≠ some '#' → (strTrim line).data.head? ≠ some '!' →
      buildPropMap path n acc (line :: rest) =
        buildPropMap path (n + 1) (hmInsert acc (strTrim ⟨k⟩) (strTrim ⟨v⟩)) rest) ∧
    (∀ (path : String) (n : Nat) (acc : PropMap) (line : String) (rest : List String),
      (strTrim line).data ≠ [] →
      (strTrim line).data.head? ≠ some '#' → (strTrim line).data.head? ≠ some '!' →
      '=' ∉ (strTrim line).data →
      buildPropMap path n acc (line :: rest) =
        .error (.malformedLine (n + 1) path (strTrim line))) ∧
    from_file [] "config.properties" ["a=1", "bad_line_no_equals"] =
      .error (.malformedLine 2 "config.properties" "bad_line_no_equals") := by
  refine ⟨?_, ?_, ?_, ?_, by decide⟩
  · intro path n acc line rest h
    simp [buildPropMap, h]
  · intro path n acc line rest h hh hci
    have hne : (strTrim line).data ≠ [] := by
      intro he; rw [he] at hh; cases hh
    rcases hci with hc | hc <;> subst hc <;> simp [buildPropMap, hne, hh]
  · intro path n acc line rest k v hkv hk h1 h2
    have hne : (strTrim line).data ≠ [] := by
      rw [hkv]; simp
    have hsplit : splitOnce '=' (strTrim line).data = some (k, v) := by
      rw [hkv]; exact splitOnce_append hk
    simp [buildPropMap, hne, h1, h2, hsplit]
  · intro path n acc line rest hne h1 h2 hmem
    have hsplit : splitOnce '=' (strTrim line).data = none := splitOnce_of_not_mem hmem
    simp [buildPropMap, hne, h1, h2, hsplit]

/-- Witness for C8 at a concrete blank line, a comment line, a key-value
line, and a malformed line. -/
theorem C8_properties_line_format_witness :
    buildPropMap "p" 0 [] ["   "] = buildPropMap "p" 1 [] [] ∧
    buildPropMap "p" 5 [] ["# note"] = buildPropMap "p" 6 [] [] ∧
    buildPropMap "p" 0 [] [" a = 1 "] =
      buildPropMap "p" 1 (hmInsert [] (strTrim ⟨['a', ' ']⟩) (strTrim ⟨[' ', '1']⟩)) [] ∧
    buildPropMap "p" 0 [] ["xyz"] = .error (.malformedLine 1 "p" "xyz") :=
  ⟨C8_properties_line_format.1 "p" 0 [] "   " [] (by decide),
   C8_properties_line_format.2.1 "p" 5 [] "# note" [] '#' (by decide) (Or.inl rfl),
   C8_properties_line_format.2.2.1 "p" 0 [] " a = 1 " [] ['a', ' '] [' ', '1']
     (by decide) (by decide) (by decide) (by decide),
   C8_properties_line_format.2.2.2.1 "p" 0 [] "xyz" []
     (by decide) (by decide) (by decide) (by decide)⟩

theorem resolveFields_ok_length {m : PropMap} {S : List FieldDesc} {r : List Value}
    (h : resolveFields m S = .ok r) : r.length = S.length := by
  induction S generalizing r with
  | nil =>
    simp only [resolveFields] at h
    cases h
    rfl
  | cons fd rest ih =>
    simp only [resolveFields] at h
    cases hi : initField m fd with
    | error e => rw [hi] at h; cases h
    | ok v =>
      rw [hi] at h
      cases hr : resolveFields m rest with
      | error e => rw [hr] at h; cases h
      | ok vs =>
        rw [hr] at h
        cases h
        simp [ih hr]

theorem resolveFields_error_decompose {m : PropMap} {S : List FieldDesc} {e : PropError}
    (h : resolveFields m S = .error e) :
    ∃ pre fd post, S = pre ++ fd :: post ∧
      (∀ g ∈ pre, ∃ v, initField m g = .ok v) ∧ initField m fd = .error e := by
  induction S with
  | nil => simp [resolveFields] at h
  | cons fd rest ih =>
    simp only [resolveFields] at h
    cases hi : initField m fd with
    | error e₀ =>
      rw [hi] at h
      cases h
      exact ⟨[], fd, rest, rfl, by simp, hi⟩
    | ok v =>
      rw [hi] at h
      cases hr : resolveFields m rest with
      | error e₀ =>
        rw [hr] at h
        cases h
        obtain ⟨pre, fd₁, post, hS, hpre, hfd⟩ := ih hr
        refine ⟨fd :: pre, fd₁, post, by rw [hS]; rfl, ?_, hfd⟩
        intro g hg
        rcases List.mem_cons.mp hg with hg | hg
        · exact ⟨v, hg ▸ hi⟩
        · exact hpre g hg
      | ok vs => rw [hr] at h; cases h

/-- Claim C7: resolution is fail-fast — the first field in declaration
order whose initialisation fails aborts the whole resolution with that
single typed error, regardless of the fields after it; a success is always
a fully populated record, and every resolution error decomposes as a first
failing field preceded only by successful ones. -/
theorem C7_fail_fast :
    (∀ (m : PropMap) (pre : List FieldDesc) (fd : FieldDesc) (post post₁ : List FieldDesc)
      (e : PropError),
      (∀ g ∈ pre, ∃ v, initField m g = .ok v) → initField m fd = .error e →
      resolveFields m (pre ++ fd :: post) = .error e ∧
        resolveFields m (pre ++ fd :: post) = resolveFields m (pre ++ fd :: post₁)) ∧
    (∀ (m : PropMap) (S : List FieldDesc) (r : List Value),
      resolveFields m S = .ok r → r.length = S.length) ∧
    (∀ (m : PropMap) (S : List FieldDesc) (e : PropError),
      resolveFields m S = .error e →
      ∃ pre fd post, S = pre ++ fd :: post ∧
        (∀ g ∈ pre, ∃ v, initField m g = .ok v) ∧ initField m fd = .error e) := by
  refine ⟨?_, fun _ _ _ h => resolveFields_ok_length h,
    fun _ _ _ h => resolveFields_error_decompose h⟩
  intro m pre fd post post₁ e hpre hfd
  have h₀ := @resolveFields_append_error m pre fd post e hpre hfd
  have h₁ := @resolveFields_append_error m pre fd post₁ e hpre hfd
  exact ⟨h₀, by rw [h₀, h₁]⟩

/-- Witness for C7: a failing first field aborts before a later field that
would itself fail differently. -/
theorem C7_fail_fast_witness :
    resolveFields [] [⟨"a", "ka", none, .scalar .pnat⟩, ⟨"b", "kb", none, .scalar .pnat⟩] =
      .error (.missingRequired "ka") :=
  (C7_fail_fast.1 [] [] ⟨"a", "ka", none, .scalar .pnat⟩
    [⟨"b", "kb", none, .scalar .pnat⟩] [] (.missingRequired "ka")
    (fun g hg => absurd hg (List.not_mem_nil g)) (by decide)).1

theorem parse_meta_ok_names {metas : List (String × String)} {k d : Option String}
    {res : Option String × Option String}
    (h : parse_meta metas k d = .ok res) :
    ∀ p v, (p, v) ∈ metas → p = "key" ∨ p = "default" := by
  induction metas generalizing k d with
  | nil => intro p v hm; cases hm
  | cons a as ih =>
    obtain ⟨ap, av⟩ := a
    intro p v hm
    by_cases h1 : ap = "key"
    · rcases List.mem_cons.mp hm with he | hm'
      · cases he; exact Or.inl h1
      · subst h1
        cases k with
        | some k₀ => simp [parse_meta] at h
        | none =>
          simp only [parse_meta, if_pos rfl] at h
          exact ih h p v hm'
    · by_cases h2 : ap = "default"
      · rcases List.mem_cons.mp hm with he | hm'
        · cases he; exact Or.inr h2
        · subst h2
          cases d with
          | some d₀ => simp [parse_meta, h1] at h
          | none =>
            simp only [parse_meta, if_neg h1, if_pos rfl] at h
            exact ih h p v hm'
      · simp [parse_meta, h1, h2] at h

/-- Counterexample to C1 as stated: the attribute parser has no `env_var`
parameter at all — a descriptor declaring one is rejected at
schema-definition time as unrecognized, so no field ever carries an
environment-variable tier. -/
theorem C1_env_var_counterexample :
    parse_key_default "port" (some [("env_var", "SERVER_PORT")]) =
      .error (.unrecognized "env_var") := by decide

/-- Claim C1 as amended: the `#[prop]` attribute recognises only `key` and
`default`, so any attribute list containing an `env_var` item makes
`parse_key_default` fail, and the resolved raw value is determined by the
source entry under the key, else the default — there is no environment
tier. -/
theorem C1_no_env_var_tier :
    (∀ (fieldName : String) (metas : List (String × String)) (v : String),
      ("env_var", v) ∈ metas →
      ∃ e, parse_key_default fieldName (some metas) = .error e) ∧
    (∀ (m : PropMap) (fd : FieldDesc) (v : String), rawValue m fd = some v →
      hmGet m fd.key = some v ∨ (hmGet m fd.key = none ∧ fd.dflt = some v)) := by
  constructor
  · intro fieldName metas v hm
    cases h : parse_meta metas none none with
    | error e => exact ⟨e, by simp [parse_key_default, h]⟩
    | ok res =>
      rcases parse_meta_ok_names h "env_var" v hm with hc | hc <;>
        exact absurd hc (by decide)
  · intro m fd v h
    unfold rawValue at h
    cases hd : fd.dflt with
    | none => rw [hd] at h; exact Or.inl h
    | some d =>
      rw [hd] at h
      cases hg : hmGet m fd.key with
      | some w => rw [hg] at h; simp at h; exact Or.inl (congrArg some h)
      | none => rw [hg] at h; simp at h; exact Or.inr ⟨rfl, congrArg some h⟩

/-- Witness for C1's amended statement at a concrete attribute list. -/
theorem C1_no_env_var_tier_witness :
    ∃ e, parse_key_default "port"
      (some [("key", "server.port"), ("env_var", "SERVER_PORT")]) = .error e :=
  C1_no_env_var_tier.1 "port" [("key", "server.port"), ("env_var", "SERVER_PORT")]
    "SERVER_PORT" (by decide)

theorem into_hash_map_aux_eq (S : List FieldDesc) :
    ∀ (r : List Value) (acc : PropMap),
      into_hash_map_aux acc S r =
        (((S.zip r).map fun p => exportEntries p.1 p.2).reverse).flatten ++ acc := by
  induction S with
  | nil => intro r acc; cases r <;> rfl
  | cons fd fds ih =>
    intro r acc
    cases r with
    | nil => rfl
    | cons v vs =>
      cases hs : serializeValue v with
      | some s =>
        simp only [into_hash_map_aux, hs, ih vs, List.zip_cons_cons, List.map_cons,
          List.reverse_cons, List.flatten_append, List.flatten_cons, exportEntries, hs,
          List.append_assoc]
        rfl
      | none =>
        simp only [into_hash_map_aux, hs, ih vs, List.zip_cons_cons, List.map_cons,
          List.reverse_cons, List.flatten_append, List.flatten_cons, exportEntries, hs,
          List.append_assoc]
        rfl

/-- Claim C6: export writes, per non-absent field, exactly the two entries
`(declared key, serialized value)` and `(field name, serialized value)`
(later fields' entries shadowing earlier ones), an absent optional field
contributes no entries, and the exported record of type A with field
`name`/default `Dumeel` resolves type B's field `server_name` with
`key = "name"` to `Dumeel`. -/
theorem C6_export_entries :
    (∀ (S : List FieldDesc) (r : List Value),
      into_hash_map S r =
        (((S.zip r).map fun p => exportEntries p.1 p.2).reverse).flatten) ∧
    (∀ (S : List FieldDesc) (r : List Value) (fd : FieldDesc),
      into_hash_map (fd :: S) (.optScalar none :: r) = into_hash_map S r) ∧
    (∀ (S : List FieldDesc) (r : List Value) (fd : FieldDesc),
      into_hash_map (fd :: S) (.optSeq none :: r) = into_hash_map S r) ∧
    defaultRecord [⟨"name", "name", some "Dumeel", .scalar .pstring⟩] =
      .ok [.scalar (.vstring "Dumeel")] ∧
    resolveFields
      (into_hash_map [⟨"name", "name", some "Dumeel", .scalar .pstring⟩]
        [.scalar (.vstring "Dumeel")])
      [⟨"server_name", "name", none, .scalar .pstring⟩] =
      .ok [.scalar (.vstring "Dumeel")] := by
  refine ⟨?_, ?_, ?_, by decide, by decide⟩
  · intro S r
    simpa using into_hash_map_aux_eq S r []
  · intro S r fd; rfl
  · intro S r fd; rfl

/-! ### Trim lemmas for the round-trip law -/

theorem trimL_head_not_ws {l : List Char} {h : Char} (hh : (trimL l).head? = some h) :
    h.isWhitespace = false := by
  induction l with
  | nil => cases hh
  | cons c cs ih =>
    by_cases hc : c.isWhitespace
    · rw [trimL, if_pos hc] at hh
      exact ih hh
    · rw [trimL, if_neg hc] at hh
      cases hh
      exact Bool.not_eq_true _ ▸ (by simpa using hc)

theorem trimL_getLast? {l : List Char} (h : trimL l ≠ []) :
    (trimL l).getLast? = l.getLast? := by
  induction l with
  | nil => cases h rfl
  | cons c cs ih =>
    by_cases hc : c.isWhitespace
    · rw [trimL, if_pos hc] at h ⊢
      rw [ih h]
      have hcs : cs ≠ [] := by
        intro he
        rw [he] at h
        exact h rfl
      cases cs with
      | nil => cases hcs rfl
      | cons b bs => exact (List.getLast?_cons_cons).symm
    · rw [trimL, if_neg hc]

theorem trimL_mem {l : List Char} {c : Char} (h : c ∈ trimL l) : c ∈ l := by
  induction l with
  | nil => cases h
  | cons a as ih =>
    by_cases ha : a.isWhitespace
    · rw [trimL, if_pos ha] at h
      exact List.mem_cons_of_mem a (ih h)
    · rwa [trimL, if_neg ha] at h

theorem trimL_eq_self {l : List Char}
    (h : ∀ c, l.head? = some c → c.isWhitespace = false) : trimL l = l := by
  cases l with
  | nil => rfl
  | cons c cs =>
    have := h c rfl
    rw [trimL, if_neg (by simp [this])]

theorem trimC_mem {l : List Char} {c : Char} (h : c ∈ trimC l) : c ∈ l := by
  unfold trimC at h
  rw [List.mem_reverse] at h
  have h₁ := trimL_mem h
  rw [List.mem_reverse] at h₁
  exact trimL_mem h₁

theorem trimC_head_not_ws {l : List Char} {h : Char} (hh : (trimC l).head? = some h) :
    h.isWhitespace = false := by
  unfold trimC at hh
  rw [List.head?_reverse] at hh
  have hne : trimL (trimL l).reverse ≠ [] := by
    intro he
    rw [he] at hh
    cases hh
  rw [trimL_getLast? hne, List.getLast?_reverse] at hh
  exact trimL_head_not_ws hh

theorem trimC_getLast_not_ws {l : List Char} {h : Char}
    (hh : (trimC l).getLast? = some h) : h.isWhitespace = false := by
  unfold trimC at hh
  rw [List.getLast?_reverse] at hh
  exact trimL_head_not_ws hh

theorem trimC_eq_self {l : List Char}
    (h1 : ∀ c, l.head? = some c → c.isWhitespace = false)
    (h2 : ∀ c, l.getLast? = some c → c.isWhitespace = false) : trimC l = l := by
  unfold trimC
  rw [trimL_eq_self h1]
  rw [trimL_eq_self (fun c hc => h2 c (by rwa [List.head?_reverse] at hc))]
  exact List.reverse_reverse l

theorem trimC_idem (l : List Char) : trimC (trimC l) = trimC l := by
  cases he : trimC l with
  | nil => rfl
  | cons c cs =>
    rw [← he]
    refine trimC_eq_self (fun a ha => trimC_head_not_ws ha)
      (fun a ha => trimC_getLast_not_ws ha)

theorem trimC_of_all_not_ws {l : List Char}
    (h : ∀ c ∈ l, c.isWhitespace = false) : trimC l = l :=
  trimC_eq_self (fun c hc => h c (List.mem_of_mem_head? hc))
    (fun c hc => h c (List.mem_of_mem_getLast? hc))

/-! ### Split and join lemmas -/

theorem splitAux_not_mem_sep {sep : Char} (l : List Char) :
    (∀ c ∈ (splitAux sep l).1, c ≠ sep) ∧
    (∀ p ∈ (splitAux sep l).2, ∀ c ∈ p, c ≠ sep) := by
  induction l with
  | nil => exact ⟨fun c hc => absurd hc (List.not_mem_nil c), fun p hp => absurd hp (List.not_mem_nil p)⟩
  | cons a as ih =>
    by_cases ha : a = sep
    · constructor
      · intro c hc
        simp [splitAux, ha] at hc
      · intro p hp
        simp only [splitAux, if_pos ha] at hp
        rcases List.mem_cons.mp hp with hp | hp
        · exact hp ▸ ih.1
        · exact ih.2 p hp
    · constructor
      · intro c hc
        simp only [splitAux, if_neg ha] at hc
        rcases List.mem_cons.mp hc with hc | hc
        · exact hc ▸ ha
        · exact ih.1 c hc
      · intro p hp
        simp only [splitAux, if_neg ha] at hp
        exact ih.2 p hp

theorem splitChar_not_mem_sep {sep : Char} {l : List Char} {p : List Char}
    (hp : p ∈ splitChar sep l) : sep ∉ p := by
  intro hc
  unfold splitChar at hp
  rcases List.mem_cons.mp hp with hp | hp
  · exact splitAux_not_mem_sep l |>.1 sep (hp ▸ hc) rfl
  · exact splitAux_not_mem_sep l |>.2 p hp sep hc rfl

theorem splitAux_of_not_mem {sep : Char} {l : List Char} (h : sep ∉ l) :
    splitAux sep l = (l, []) := by
  induction l with
  | nil => rfl
  | cons a as ih =>
    have ha : a ≠ sep := fun he => h (he ▸ List.mem_cons_self a as)
    have has : sep ∉ as := fun hm => h (List.mem_cons_of_mem a hm)
    simp [splitAux, ha, ih has]

theorem splitAux_append_sep {sep : Char} {p rest : List Char} (h : sep ∉ p) :
    splitAux sep (p ++ sep :: rest) =
      (p, (splitAux sep rest).1 :: (splitAux sep rest).2) := by
  induction p with
  | nil => simp [splitAux]
  | cons a as ih =>
    have ha : a ≠ sep := fun he => h (he ▸ List.mem_cons_self a as)
    have has : sep ∉ as := fun hm => h (List.mem_cons_of_mem a hm)
    simp [splitAux, ha, ih has]

theorem splitChar_join {sep : Char} {parts : List (List Char)}
    (hne : parts ≠ []) (h : ∀ p ∈ parts, sep ∉ p) :
    splitChar sep (joinWith sep parts) = parts := by
  induction parts with
  | nil => cases hne rfl
  | cons p ps ih =>
    cases ps with
    | nil =>
      have hp : sep ∉ p := h p (List.mem_cons_self p [])
      simp [joinWith, splitChar, splitAux_of_not_mem hp]
    | cons q qs =>
      have hp : sep ∉ p := h p (List.mem_cons_self p _)
      have hrec := ih (by simp) (fun a ha => h a (List.mem_cons_of_mem p ha))
      simp only [joinWith]
      unfold splitChar
      rw [splitAux_append_sep hp]
      unfold splitChar at hrec
      simp only [Prod.fst, Prod.snd]
      rw [hrec]

/-! ### Decimal representation round-trip -/

theorem digitChar_facts {d : Nat} (hd : d < 10) :
    (digitChar d).isDigit = true ∧ digitVal (digitChar d) = d ∧
    digitChar d ≠ '+' ∧ digitChar d ≠ ',' ∧ (digitChar d).isWhitespace = false := by
  interval_cases d <;> exact (by decide)

theorem natReprAux_eq : ∀ (fuel n : Nat), n ≤ fuel →
    natReprAux fuel n = (Nat.digits 10 n).reverse.map digitChar := by
  intro fuel
  induction fuel with
  | zero =>
    intro n h
    have h0 : n = 0 := Nat.le_zero.mp h
    subst h0
    simp [natReprAux]
  | succ fuel ih =>
    intro n h
    cases n with
    | zero => simp [natReprAux]
    | succ m =>
      have hdiv : (m + 1) / 10 ≤ fuel := by
        have := Nat.div_lt_self (Nat.succ_pos m) (by norm_num : 1 < 10)
        omega
      rw [natReprAux, ih _ hdiv,
        Nat.digits_def' (by norm_num : 1 < 10) (Nat.succ_pos m)]
      simp

theorem natRepr_form {n : Nat} : ∀ c ∈ natRepr n, ∃ d, d < 10 ∧ c = digitChar d := by
  intro c hc
  unfold natRepr at hc
  by_cases h0 : n = 0
  · rw [if_pos h0] at hc
    rcases List.mem_cons.mp hc with hc | hc
    · exact ⟨0, by norm_num, hc⟩
    · cases hc
  · rw [if_neg h0, natReprAux_eq n n le_rfl] at hc
    obtain ⟨d, hd, hcd⟩ := List.mem_map.mp hc
    refine ⟨d, Nat.digits_lt_base (by norm_num) (List.mem_reverse.mp hd), hcd.symm⟩

theorem natRepr_ne_nil (n : Nat) : natRepr n ≠ [] := by
  unfold natRepr
  by_cases h0 : n = 0
  · rw [if_pos h0]; simp
  · rw [if_neg h0, natReprAux_eq n n le_rfl]
    simp [Nat.digits_ne_nil_iff_ne_zero.mpr h0]

theorem foldl_digitVal_map {L : List Nat} (hL : ∀ d ∈ L, d < 10) :
    ∀ a, List.foldl (fun acc c => 10 * acc + digitVal c) a (L.map digitChar) =
      List.foldl (fun acc d => 10 * acc + d) a L := by
  induction L with
  | nil => intro a; rfl
  | cons d ds ih =>
    intro a
    simp only [List.map_cons, List.foldl_cons]
    rw [(digitChar_facts (hL d (List.mem_cons_self d ds))).2.1]
    exact ih (fun x hx => hL x (List.mem_cons_of_mem d hx)) _

theorem foldl_base10_reverse (L : List Nat) :
    List.foldl (fun acc d => 10 * acc + d) 0 L.reverse = Nat.ofDigits 10 L := by
  rw [List.foldl_reverse, Nat.ofDigits_eq_foldr]
  induction L with
  | nil => rfl
  | cons d ds ih =>
    rw [List.foldr_cons, List.foldr_cons, ih]
    push_cast
    ring

theorem natParse_natRepr (n : Nat) : natParse (natRepr n) = some n := by
  by_cases h0 : n = 0
  · subst h0; decide
  · have hall : ∀ c ∈ natRepr n, c.isDigit = true := by
      intro c hc
      obtain ⟨d, hd, hcd⟩ := natRepr_form c hc
      exact hcd ▸ (digitChar_facts hd).1
    have hfold : (natRepr n).foldl (fun acc c => 10 * acc + digitVal c) 0 = n := by
      have hrepr : natRepr n = ((Nat.digits 10 n).reverse).map digitChar := by
        unfold natRepr
        rw [if_neg h0, natReprAux_eq n n le_rfl]
      rw [hrepr, foldl_digitVal_map
        (fun d hd => Nat.digits_lt_base (by norm_num) (List.mem_reverse.mp hd)),
        foldl_base10_reverse, Nat.ofDigits_digits]
    cases he : natRepr n with
    | nil => exact absurd he (natRepr_ne_nil n)
    | cons c cs =>
      have hc : c ≠ '+' := by
        obtain ⟨d, hd, hcd⟩ := natRepr_form c (he ▸ List.mem_cons_self c cs)
        exact hcd ▸ (digitChar_facts hd).2.2.1
      rw [natParse, if_neg hc]
      unfold natParseDigits
      rw [if_neg (by simp), if_pos (by
        rw [List.all_eq_true]
        intro x hx
        exact hall x (he ▸ hx))]
      rw [← he, hfold]

/-! ### Serialize/parse round-trips -/

theorem parsePrim_roundtrip {t : PrimTy} {raw : String} {v : PrimVal}
    (h : parsePrim t raw = some v) : parsePrim t (serializePrim v) = some v := by
  cases t with
  | pstring =>
    cases h
    rfl
  | pnat =>
    simp only [parsePrim, Option.map_eq_some'] at h
    obtain ⟨n, hn, hv⟩ := h
    subst hv
    simp only [serializePrim, parsePrim]
    rw [natParse_natRepr]
    rfl
  | pbool =>
    simp only [parsePrim, Option.map_eq_some'] at h
    obtain ⟨b, hb, hv⟩ := h
    subst hv
    cases b <;> decide

theorem parse_ok_iff {t : PrimTy} {s : String} {v : PrimVal} :
    parse t s = .ok v ↔ parsePrim t s = some v := by
  unfold parse
  cases h : parsePrim t s <;> simp

theorem parse_roundtrip {t : PrimTy} {raw : String} {v : PrimVal}
    (h : parse t raw = .ok v) : parse t (serializePrim v) = .ok v :=
  parse_ok_iff.mpr (parsePrim_roundtrip (parse_ok_iff.mp h))

theorem natRepr_clean (n : Nat) : CleanSeg (natRepr n) := by
  refine ⟨natRepr_ne_nil n, trimC_of_all_not_ws ?_, ?_⟩
  · intro c hc
    obtain ⟨d, hd, hcd⟩ := natRepr_form c hc
    exact hcd ▸ (digitChar_facts hd).2.2.2.2
  · intro hc
    obtain ⟨d, hd, hcd⟩ := natRepr_form ',' hc
    exact (digitChar_facts hd).2.2.2.1 hcd.symm

theorem cleanSeg_serialize {t : PrimTy} {seg : String} {v : PrimVal}
    (hseg : CleanSeg seg.data) (h : parsePrim t seg = some v) :
    CleanSeg (serializePrim v).data := by
  cases t with
  | pstring =>
    cases h
    exact hseg
  | pnat =>
    simp only [parsePrim, Option.map_eq_some'] at h
    obtain ⟨n, _, hv⟩ := h
    subst hv
    exact natRepr_clean n
  | pbool =>
    simp only [parsePrim, Option.map_eq_some'] at h
    obtain ⟨b, _, hv⟩ := h
    subst hv
    cases b <;> exact ⟨by decide, by decide, by decide⟩

theorem segments_clean {s : String} : ∀ seg ∈ segments s, CleanSeg seg.data := by
  intro seg hseg
  unfold segments at hseg
  obtain ⟨l, hl, hmk⟩ := List.mem_map.mp hseg
  rw [List.mem_filter] at hl
  obtain ⟨hmem, hne⟩ := hl
  obtain ⟨p0, hp0, hp0l⟩ := List.mem_map.mp hmem
  subst hmk
  refine ⟨of_decide_eq_true hne, ?_, ?_⟩
  · rw [← hp0l]
    exact trimC_idem p0
  · intro hc
    exact splitChar_not_mem_sep hp0 (trimC_mem (hp0l ▸ hc))

theorem mapExcept_ok_mem {f : α → Except ε β} {l : List α} {out : List β}
    (h : mapExcept f l = .ok out) : ∀ b ∈ out, ∃ a ∈ l, f a = .ok b := by
  induction l generalizing out with
  | nil =>
    cases h
    intro b hb
    cases hb
  | cons a as ih =>
    simp only [mapExcept] at h
    cases hfa : f a with
    | error e => rw [hfa] at h; cases h
    | ok b₀ =>
      rw [hfa] at h
      cases hrest : mapExcept f as with
      | error e => rw [hrest] at h; cases h
      | ok bs =>
        rw [hrest] at h
        cases h
        intro b hb
        rcases List.mem_cons.mp hb with hb | hb
        · exact ⟨a, List.mem_cons_self a as, hb ▸ hfa⟩
        · obtain ⟨a₁, ha₁, hfa₁⟩ := ih hrest b hb
          exact ⟨a₁, List.mem_cons_of_mem a ha₁, hfa₁⟩

theorem mapExcept_serialize_ok {t : PrimTy} {vs : List PrimVal}
    (h : ∀ v ∈ vs, parse t (serializePrim v) = .ok v) :
    mapExcept (parse t) (vs.map serializePrim) = .ok vs := by
  induction vs with
  | nil => rfl
  | cons v ws ih =>
    simp only [List.map_cons, mapExcept, h v (List.mem_cons_self v ws),
      ih (fun w hw => h w (List.mem_cons_of_mem v hw))]

theorem parse_vec_ok_elements {t : PrimTy} {raw : String} {vs : List PrimVal}
    (h : parse_vec t raw = .ok vs) :
    ∀ v ∈ vs, parse t (serializePrim v) = .ok v ∧ CleanSeg (serializePrim v).data := by
  intro v hv
  obtain ⟨seg, hsegmem, hseg⟩ := mapExcept_ok_mem h v hv
  have hclean := segments_clean seg hsegmem
  have hp := parse_ok_iff.mp hseg
  exact ⟨parse_roundtrip hseg, cleanSeg_serialize hclean hp⟩

theorem parse_vec_roundtrip {t : PrimTy} {raw : String} {vs : List PrimVal}
    (h : parse_vec t raw = .ok vs) :
    parse_vec t ⟨joinWith ',' (vs.map (fun v => (serializePrim v).data))⟩ = .ok vs := by
  cases vs with
  | nil => rfl
  | cons w ws =>
    have helems := parse_vec_ok_elements h
    have hparts : ∀ p ∈ (w :: ws).map (fun v => (serializePrim v).data), ',' ∉ p := by
      intro p hp
      obtain ⟨v, hv, hpv⟩ := List.mem_map.mp hp
      exact hpv ▸ (helems v hv).2.2.2
    have htrim : List.map trimC (List.map (fun v => (serializePrim v).data) (w :: ws)) =
        List.map (fun v => (serializePrim v).data) (w :: ws) := by
      rw [List.map_map]
      exact List.map_congr_left (fun v hv => (helems v hv).2.2.1)
    have hfilt : List.filter (fun l => decide (l ≠ []))
        (List.map (fun v => (serializePrim v).data) (w :: ws)) =
        List.map (fun v => (serializePrim v).data) (w :: ws) := by
      refine List.filter_eq_self.mpr ?_
      intro p hp
      obtain ⟨v, hv, hpv⟩ := List.mem_map.mp hp
      exact decide_eq_true (hpv ▸ (helems v hv).2.1)
    have hmaps : (List.map (fun v => (serializePrim v).data) (w :: ws)).map
        (fun l => (⟨l⟩ : String)) = (w :: ws).map serializePrim := by
      rw [List.map_map]
      rfl
    unfold parse_vec segments
    rw [splitChar_join (by simp) hparts, htrim, hfilt, hmaps]
    exact mapExcept_serialize_ok (fun v hv => (helems v hv).1)

/-! ### Export-map lookups -/

theorem hmGet_into_aux_skip {k : String} :
    ∀ (S : List FieldDesc) (r : List Value) (acc : PropMap),
      (∀ p ∈ S.zip r, serializeValue p.2 = none ∨ (p.1.key ≠ k ∧ p.1.name ≠ k)) →
      hmGet (into_hash_map_aux acc S r) k = hmGet acc k := by
  intro S
  induction S with
  | nil =>
    intro r acc h
    cases r <;> rfl
  | cons fd fds ih =>
    intro r acc h
    cases r with
    | nil => rfl
    | cons v vs =>
      have htail : ∀ p ∈ fds.zip vs, serializeValue p.2 = none ∨ (p.1.key ≠ k ∧ p.1.name ≠ k) := by
        intro p hp
        refine h p ?_
        rw [List.zip_cons_cons]
        exact List.mem_cons_of_mem _ hp
      cases hs : serializeValue v with
      | none =>
        simp only [into_hash_map_aux, hs]
        exact ih vs acc htail
      | some s =>
        rcases h (fd, v) (by rw [List.zip_cons_cons]; exact List.mem_cons_self _ _) with
          hc | ⟨hk, hn⟩
        · rw [hs] at hc; cases hc
        · simp only [into_hash_map_aux, hs]
          rw [ih vs _ htail]
          unfold hmGet hmInsert
          rw [List.find?_cons_of_neg _ (by simp [hk]),
            List.find?_cons_of_neg _ (by simp [hn])]

theorem hmGet_into_aux_found {fd : FieldDesc} {v : Value} {s : String}
    {S₂ : List FieldDesc} {r₂ : List Value}
    (hs : serializeValue v = some s)
    (h2 : ∀ p ∈ S₂.zip r₂, p.1.key ≠ fd.key ∧ p.1.name ≠ fd.key) :
    ∀ (S₁ : List FieldDesc) (r₁ : List Value) (acc : PropMap), S₁.length = r₁.length →
      hmGet (into_hash_map_aux acc (S₁ ++ fd :: S₂) (r₁ ++ v :: r₂)) fd.key = some s := by
  intro S₁
  induction S₁ with
  | nil =>
    intro r₁ acc hlen
    have hr : r₁ = [] := List.length_eq_zero.mp hlen.symm
    subst hr
    simp only [List.nil_append, into_hash_map_aux, hs]
    rw [hmGet_into_aux_skip S₂ r₂ _ (fun p hp => Or.inr (h2 p hp))]
    unfold hmGet hmInsert
    rw [List.find?_cons_of_pos _ (by simp)]
    rfl
  | cons g gs ih =>
    intro r₁ acc hlen
    cases r₁ with
    | nil => simp at hlen
    | cons w ws =>
      have hlen' : gs.length = ws.length := by simpa using hlen
      cases hw : serializeValue w with
      | some s₀ =>
        simp only [List.cons_append, into_hash_map_aux, hw]
        exact ih ws _ hlen'
      | none =>
        simp only [List.cons_append, into_hash_map_aux, hw]
        exact ih ws _ hlen'

theorem hmGet_into_map_absent {fd : FieldDesc} {v : Value}
    {S₁ S₂ : List FieldDesc} {r₁ r₂ : List Value}
    (hs : serializeValue v = none) (hlen : S₁.length = r₁.length)
    (h1 : ∀ p ∈ S₁.zip r₁, p.1.key ≠ fd.key ∧ p.1.name ≠ fd.key)
    (h2 : ∀ p ∈ S₂.zip r₂, p.1.key ≠ fd.key ∧ p.1.name ≠ fd.key) :
    hmGet (into_hash_map (S₁ ++ fd :: S₂) (r₁ ++ v :: r₂)) fd.key = none := by
  unfold into_hash_map
  rw [hmGet_into_aux_skip _ _ _ ?_]
  · rfl
  · intro p hp
    rw [List.zip_append hlen] at hp
    rcases List.mem_append.mp hp with hp | hp
    · exact Or.inr (h1 p hp)
    · rw [List.zip_cons_cons] at hp
      rcases List.mem_cons.mp hp with hp | hp
      · subst hp
        exact Or.inl hs
      · exact Or.inr (h2 p hp)

/-! ### Per-field re-resolution from an export -/

theorem rawValue_none_dflt {m : PropMap} {fd : FieldDesc}
    (h : rawValue m fd = none) : fd.dflt = none := by
  unfold rawValue at h
  cases hd : fd.dflt with
  | none => rfl
  | some d => rw [hd] at h; cases h

theorem rawValue_none_of {m : PropMap} {fd : FieldDesc}
    (hd : fd.dflt = none) (hg : hmGet m fd.key = none) : rawValue m fd = none := by
  unfold rawValue
  rw [hd, hg]

theorem initField_roundtrip {src M : PropMap} {fd : FieldDesc} {v : Value}
    (hv : initField src fd = .ok v)
    (hser : ∀ s, serializeValue v = some s → hmGet M fd.key = some s)
    (habs : serializeValue v = none → hmGet M fd.key = none) :
    initField M fd = .ok v := by
  cases hshape : fd.shape with
  | scalar t =>
    simp only [initField, hshape] at hv
    cases hraw : rawValue src fd with
    | none => rw [hraw] at hv; cases hv
    | some raw =>
      rw [hraw] at hv
      dsimp only at hv
      cases hp : parse t raw with
      | error c => rw [hp] at hv; cases hv
      | ok v₀ =>
        rw [hp] at hv
        cases hv
        have hget := hser (serializePrim v₀) rfl
        simp only [initField, hshape, rawValue_of_get hget, parse_roundtrip hp]
  | optionScalar t =>
    simp only [initField, hshape] at hv
    cases hraw : rawValue src fd with
    | none =>
      rw [hraw] at hv
      cases hv
      have hget := habs rfl
      simp only [initField, hshape, rawValue_none_of (rawValue_none_dflt hraw) hget]
    | some raw =>
      rw [hraw] at hv
      dsimp only at hv
      cases hp : parse t raw with
      | error c => rw [hp] at hv; cases hv
      | ok v₀ =>
        rw [hp] at hv
        cases hv
        have hget := hser (serializePrim v₀) rfl
        simp only [initField, hshape, rawValue_of_get hget, parse_roundtrip hp]
  | seqOf t =>
    simp only [initField, hshape] at hv
    cases hraw : rawValue src fd with
    | none => rw [hraw] at hv; cases hv
    | some raw =>
      rw [hraw] at hv
      dsimp only at hv
      cases hp : parse_vec t raw with
      | error c => rw [hp] at hv; cases hv
      | ok vs =>
        rw [hp] at hv
        cases hv
        have hget := hser _ rfl
        simp only [initField, hshape, rawValue_of_get hget, parse_vec_roundtrip hp]
  | optionSeq t =>
    simp only [initField, hshape] at hv
    cases hraw : rawValue src fd with
    | none =>
      rw [hraw] at hv
      cases hv
      have hget := habs rfl
      simp only [initField, hshape, rawValue_none_of (rawValue_none_dflt hraw) hget]
    | some raw =>
      rw [hraw] at hv
      dsimp only at hv
      cases hp : parse_vec t raw with
      | error c => rw [hp] at hv; cases hv
      | ok vs =>
        rw [hp] at hv
        cases hv
        have hget := hser _ rfl
        simp only [initField, hshape, rawValue_of_get hget, parse_vec_roundtrip hp]

theorem resolveFields_ok_forall₂ {m : PropMap} {S : List FieldDesc} {r : List Value}
    (h : resolveFields m S = .ok r) :
    List.Forall₂ (fun fd v => initField m fd = .ok v) S r := by
  induction S generalizing r with
  | nil =>
    cases h
    exact List.Forall₂.nil
  | cons fd rest ih =>
    simp only [resolveFields] at h
    cases hi : initField m fd with
    | error e => rw [hi] at h; cases h
    | ok v =>
      rw [hi] at h
      cases hr : resolveFields m rest with
      | error e => rw [hr] at h; cases h
      | ok vs =>
        rw [hr] at h
        cases h
        exact List.Forall₂.cons hi (ih hr)

theorem resolveFields_ok_of_forall₂ {m : PropMap} {S : List FieldDesc} {r : List Value}
    (h : List.Forall₂ (fun fd v => initField m fd = .ok v) S r) :
    resolveFields m S = .ok r := by
  induction h with
  | nil => rfl
  | cons hfd _ ih => simp [resolveFields, hfd, ih]

theorem roundtrip_aux (src : PropMap) (T : List FieldDesc) (rT : List Value)
    (hwf : KeysSeparated T) :
    ∀ {S₂ : List FieldDesc} {r₂ : List Value},
      List.Forall₂ (fun fd v => initField src fd = .ok v) S₂ r₂ →
      ∀ S₁ r₁, T = S₁ ++ S₂ → rT = r₁ ++ r₂ → S₁.length = r₁.length →
      List.Forall₂ (fun fd v => initField (into_hash_map T rT) fd = .ok v) S₂ r₂ := by
  intro S₂ r₂ hf
  induction hf with
  | nil =>
    intro S₁ r₁ hT hr hlen
    exact List.Forall₂.nil
  | @cons fd v S₂' r₂' hfd htail ih =>
    intro S₁ r₁ hT hr hlen
    have hlen₂ : S₂'.length = r₂'.length := htail.length_eq
    have hpair := (List.pairwise_append.mp (hT ▸ hwf))
    have hcons := List.pairwise_cons.mp hpair.2.1
    have h2 : ∀ p ∈ S₂'.zip r₂', p.1.key ≠ fd.key ∧ p.1.name ≠ fd.key := by
      intro p hp
      have hmem := (List.of_mem_zip hp).1
      have hR := hcons.1 p.1 hmem
      exact ⟨Ne.symm hR.1, Ne.symm hR.2.1⟩
    have h1 : ∀ p ∈ S₁.zip r₁, p.1.key ≠ fd.key ∧ p.1.name ≠ fd.key := by
      intro p hp
      have hmem := (List.of_mem_zip hp).1
      have hR := hpair.2.2 p.1 hmem fd (List.mem_cons_self fd S₂')
      exact ⟨hR.1, Ne.symm hR.2.2⟩
    constructor
    · refine initField_roundtrip hfd ?_ ?_
      · intro s hs
        rw [hT, hr]
        unfold into_hash_map
        exact hmGet_into_aux_found hs h2 S₁ r₁ [] hlen
      · intro hs
        rw [hT, hr]
        exact hmGet_into_map_absent hs hlen h1 h2
    · refine ih (S₁ ++ [fd]) (r₁ ++ [v]) ?_ ?_ ?_
      · rw [hT, List.append_assoc]
        rfl
      · rw [hr, List.append_assoc]
        rfl
      · simp [hlen]

/-- Counterexample to C2 as stated: two fields sharing the lookup key `k`
with distinct defaults resolve to distinct values, but the later field's
export entry overwrites the earlier one's, so re-resolving the export
changes the first field's value. -/
theorem C2_duplicate_key_counterexample :
    resolveFields []
      [⟨"a", "k", some "1", .scalar .pstring⟩, ⟨"b", "k", some "2", .scalar .pstring⟩] =
      .ok [.scalar (.vstring "1"), .scalar (.vstring "2")] ∧
    resolveFields
      (into_hash_map
        [⟨"a", "k", some "1", .scalar .pstring⟩, ⟨"b", "k", some "2", .scalar .pstring⟩]
        [.scalar (.vstring "1"), .scalar (.vstring "2")])
      [⟨"a", "k", some "1", .scalar .pstring⟩, ⟨"b", "k", some "2", .scalar .pstring⟩] =
      .ok [.scalar (.vstring "2"), .scalar (.vstring "2")] ∧
    [Value.scalar (.vstring "2"), Value.scalar (.vstring "2")] ≠
      [Value.scalar (.vstring "1"), Value.scalar (.vstring "2")] :=
  ⟨by decide, by decide, by decide⟩

/-- Claim C2 as amended: for a schema whose fields' keys are pairwise
distinct and never equal to another field's name, every record produced by
resolution re-resolves from its own export to exactly the same record —
absent optional fields included, which re-import as absent. -/
theorem C2_export_resolve_roundtrip :
    ∀ (S : List FieldDesc) (src : PropMap) (r : List Value),
      KeysSeparated S → resolveFields src S = .ok r →
      resolveFields (into_hash_map S r) S = .ok r := by
  intro S src r hwf h
  exact resolveFields_ok_of_forall₂
    (roundtrip_aux src S r hwf (resolveFields_ok_forall₂ h) [] [] rfl rfl rfl)

/-- Witness for C2's amended statement: a record with a defaulted string, a
numeric sequence resolved from a source entry, and an absent optional bool
round-trips through its export. -/
theorem C2_export_resolve_roundtrip_witness :
    resolveFields
      (into_hash_map
        [⟨"name", "name", some "Dumeel", .scalar .pstring⟩,
         ⟨"ports", "ports", none, .seqOf .pnat⟩,
         ⟨"opt", "o", none, .optionScalar .pbool⟩]
        [.scalar (.vstring "Dumeel"), .seqV [.vnat 1, .vnat 2], .optScalar none])
      [⟨"name", "name", some "Dumeel", .scalar .pstring⟩,
       ⟨"ports", "ports", none, .seqOf .pnat⟩,
       ⟨"opt", "o", none, .optionScalar .pbool⟩] =
      .ok [.scalar (.vstring "Dumeel"), .seqV [.vnat 1, .vnat 2], .optScalar none] :=
  C2_export_resolve_roundtrip
    [⟨"name", "name", some "Dumeel", .scalar .pstring⟩,
     ⟨"ports", "ports", none, .seqOf .pnat⟩,
     ⟨"opt", "o", none, .optionScalar .pbool⟩]
    [("ports", "1,2")]
    [.scalar (.vstring "Dumeel"), .seqV [.vnat 1, .vnat 2], .optScalar none]
    (by unfold KeysSeparated; decide) (by decide)

end PropsUtil
